import Mathlib

/-!
Verification of the divergence-detection core of `eth2-nodemonitor`
(`src/nodes/monitor.go`).

The embedding translates the Go source into Lean definitions:

* `sortSearch` embeds Go's `sort.Search` binary search, as used by
  `findSplit` (monitor.go:209-214).
* `pairCalls` / `forPairs` embed the nested `i < j` loops of `forPairs`
  (monitor.go:217-223); the call-site side effects become an explicit
  fold state.
* `pollPhase`, `pairStep`, `pairPhase`, `headList` and `doChecks` embed
  the per-cycle check `doChecks` (monitor.go:79-156): polling every node,
  the pairwise split detection, the `chain/split` gauge and the sorted
  report height list.
* `blockDB.add`, `blockDB.get` and `NewBlockDB` embed the header store
  (monitor.go:229-268).  The external goleveldb handle and the
  go-ethereum RLP codec are modelled at their interface boundary.

Machine integers (`uint64`, `int`, `int64`) are modelled as `Nat`/`Int`;
all heights occurring in the monitor are small and non-negative, and no
operation in the translated code can overflow or go negative where `Nat`
is used.
-/

namespace EthMon

/-- Block identity hash (`common.Hash` in the Go source), modelled as an
opaque comparable value. -/
abbrev Hash := Nat

/-- Node status enumeration (`NodeStatusOK` / `NodeStatusUnreachable`). -/
inductive NodeStatus where
  | ok
  | unreachable
deriving DecidableEq, Repr

/-- The `Node` capability interface consumed by the monitor
(monitor.go uses `Version`, `UpdateLatest`, `HeadNum`, `BlockAt`,
`HashAt`, `Name`, `SetStatus`).  A node is modelled by the answers it
gives during one cycle: `updateErr` is whether `UpdateLatest` returns an
error, `headNum` is `HeadNum()`, `blockAt h` is the hash of the block
returned by `BlockAt(h, false)` (`none` when the node is missing the
block), `hashAt h` is `HashAt(h, false)`. -/
structure Node where
  name : String
  status : NodeStatus
  updateErr : Bool
  headNum : Nat
  blockAt : Nat → Option Hash
  hashAt : Nat → Hash

/-- Embedding of `node.SetStatus(s)` (status is a field mutated in place
in Go; modelled functionally). -/
def Node.setStatus (n : Node) (s : NodeStatus) : Node :=
  { n with status := s }

/-- Go's `sort.Search` loop body: binary search on the interval `[i, j)`.
`sort.Search(n, f)` runs `i, j := 0, n`; while `i < j` it sets
`h := (i+j)/2` and narrows to `[i, h)` when `f(h)` holds, to `[h+1, j)`
otherwise, finally returning `i`. -/
def sortSearchAux (f : Nat → Bool) (i j : Nat) : Nat :=
  if hlt : i < j then
    if f ((i + j) / 2) then sortSearchAux f i ((i + j) / 2)
    else sortSearchAux f ((i + j) / 2 + 1) j
  else i
termination_by j - i
decreasing_by
  all_goals omega

/-- Go's `sort.Search(n, f)`: the smallest index in `[0, n)` at which
`f` is true, assuming monotonicity of `f`; `n` if there is none. -/
def sortSearch (n : Nat) (f : Nat → Bool) : Nat :=
  sortSearchAux f 0 n

/-- Embedding of `findSplit(num, a, b)` (monitor.go:209-214): binary-search `[0, num)`
for the smallest height at which the two nodes report different hashes. -/
def findSplit (num : Nat) (a b : Node) : Nat :=
  sortSearch num (fun i => a.hashAt i != b.hashAt i)

/-- The sequence of argument pairs on which `forPairs(elems, fn)`
(monitor.go:217-223) invokes `fn`: the nested loops
`for i ...; for j := i+1 ...` call `fn(elems[i], elems[j])` for every
`i < j`, in lexicographic order of `(i, j)`. -/
def pairCalls {α : Type} : List α → List (α × α)
  | [] => []
  | x :: xs => (xs.map fun y => (x, y)) ++ pairCalls xs

/-- Embedding of `forPairs(elems, fn)` where the side effects of the Go closure `fn`
on its captured variables are made explicit as a fold state. -/
def forPairs {α σ : Type} (elems : List α) (fn : σ → α → α → σ) (s : σ) : σ :=
  (pairCalls elems).foldl (fun st p => fn st p.1 p.2) s

/-- The common horizon of a pair, as computed at monitor.go:115-118:
`highest := a.HeadNum(); if b.HeadNum() < highest { highest = b.HeadNum() }`. -/
def commonHorizon (a b : Node) : Nat :=
  if b.headNum < a.headNum then b.headNum else a.headNum

/-- Whether the pair `(a, b)` is found diverging by the pair closure in
`doChecks` (monitor.go:121-135): both nodes return a block at the common
horizon and the two hashes differ. -/
def diverges (a b : Node) : Bool :=
  match a.blockAt (commonHorizon a b), b.blockAt (commonHorizon a b) with
  | some ha, some hb => ha != hb
  | _, _ => false

/-- The split height computed for a diverging pair (monitor.go:136):
`split := findSplit(int(highest), a, b)`. -/
def splitHeight (a b : Node) : Nat :=
  findSplit (commonHorizon a b) a b

/-- The split length computed for a diverging pair (monitor.go:137):
`splitLength := int64(int(highest) - split)`. -/
def splitLength (a b : Node) : Int :=
  (commonHorizon a b : Int) - (splitHeight a b : Int)

/-- The polling loop of `doChecks` (monitor.go:95-110).  For each node in
order: on `UpdateLatest` failure set its status to Unreachable and skip
it; on success set its status to OK, append it to `activeNodes` and mark
its head number in the `heads` set.  Returns the status-updated node
list, the active node list and the initial `heads` set. -/
def pollPhase : List Node → List Node × List Node × Finset Nat
  | [] => ([], [], ∅)
  | node :: rest =>
    let r := pollPhase rest
    if node.updateErr then
      (node.setStatus .unreachable :: r.1, r.2.1, r.2.2)
    else
      (node.setStatus .ok :: r.1, node.setStatus .ok :: r.2.1,
        insert node.headNum r.2.2)

/-- The body of the pair closure passed to `forPairs` in `doChecks`
(monitor.go:113-148), acting on the state `(splitSize, heads)`.  A pair
with a missing block at the common horizon, or with equal hashes there,
leaves the state unchanged; a diverging pair updates `splitSize` when
its split length is larger and adds `split` (and `split - 1` when
`split > 0`) to `heads`. -/
def pairStep (st : Int × Finset Nat) (a b : Node) : Int × Finset Nat :=
  let highest := commonHorizon a b
  match a.blockAt highest with
  | none => st
  | some ha =>
    match b.blockAt highest with
    | none => st
    | some hb =>
      if ha == hb then st
      else
        let split := findSplit highest a b
        let sl : Int := (highest : Int) - (split : Int)
        let splitSize := if st.1 < sl then sl else st.1
        let heads := insert split st.2
        let heads := if 0 < split then insert (split - 1) heads else heads
        (splitSize, heads)

/-- The pairwise phase of `doChecks`: `forPairs(activeNodes, ...)` run on
the state `(splitSize := 0, heads)` (monitor.go:84 and 112-148). -/
def pairPhase (active : List Node) (heads : Finset Nat) : Int × Finset Nat :=
  forPairs active pairStep (0, heads)

/-- The report height list of `doChecks` (monitor.go:150-154): the keys of
the `heads` map collected into a slice and sorted in reverse (descending)
order. -/
def headList (heads : Finset Nat) : List Nat :=
  (heads.sort (· ≤ ·)).reverse

/-- The observable result of one `doChecks` cycle: the nodes with their
updated statuses, the active node list, the final value of the
`chain/split` gauge, the final `heads` set and the sorted report height
list. -/
structure CycleResult where
  nodesAfter : List Node
  activeNodes : List Node
  splitSize : Int
  heads : Finset Nat
  headList : List Nat

/-- One cycle of `doChecks` (monitor.go:79-156), up to the point where the
report is built: poll every node, run the pairwise split detection over
the active nodes, set the gauge and sort the height list. -/
def doChecks (nodes : List Node) : CycleResult :=
  let p := pollPhase nodes
  let q := pairPhase p.2.1 p.2.2
  { nodesAfter := p.1
    activeNodes := p.2.1
    splitSize := q.1
    heads := q.2
    headList := headList q.2 }

/-! ### Header store (`blockDB`, monitor.go:225-268)

The store wraps an external goleveldb database and the go-ethereum RLP
codec.  Both are external libraries, so they are modelled at their
interface boundary, following the spec's description of the store. -/

/-- Serialized bytes (a leveldb value). -/
abbrev Bytes := List Nat

/-- A block header (`types.Header`), opaque to the monitor. -/
abbrev Header := Nat

/-- Modelled from the spec: `rlp.EncodeToBytes` of the external
go-ethereum library, a "canonical, deterministic encoding" of a header;
it can in principle fail (the Go API returns an error). -/
def rlpEncodeToBytes (h : Header) : Except String Bytes :=
  .ok [h]

/-- Modelled from the spec: `rlp.DecodeBytes` of the external go-ethereum
library, the inverse of `rlpEncodeToBytes`; it fails on bytes that are
not a valid encoding. -/
def rlpDecodeBytes (b : Bytes) : Except String Header :=
  match b with
  | [h] => .ok h
  | _ => .error "rlp: malformed"

/-- Modelled from the spec: the external goleveldb database handle at its
interface boundary.  `entries` are the stored key/value pairs (most
recent write first); `readFail` marks keys whose disk read fails with an
error other than not-found (e.g. corruption). -/
structure LevelDB where
  entries : List (Hash × Bytes)
  readFail : Hash → Bool

/-- Modelled from the spec: `db.Has(k, nil)` of goleveldb — whether the
key is present. -/
def LevelDB.has (db : LevelDB) (k : Hash) : Bool :=
  (db.entries.lookup k).isSome

/-- Modelled from the spec: `db.Put(k, v, nil)` of goleveldb — store the
value under the key (overwriting). -/
def LevelDB.put (db : LevelDB) (k : Hash) (v : Bytes) : LevelDB :=
  { db with entries := (k, v) :: db.entries }

/-- Modelled from the spec: `db.Get(k, nil)` of goleveldb — the stored
value, or an error, which is not-found for an absent key and an I/O or
corruption error for a key in `readFail`. -/
def LevelDB.rawGet (db : LevelDB) (k : Hash) : Except String Bytes :=
  if db.readFail k then .error "leveldb: read failure"
  else
    match db.entries.lookup k with
    | some v => .ok v
    | none => .error "leveldb: not found"

/-- Embedding of `blockDB.add` (monitor.go:246-256): if the key is already present, do
nothing; otherwise RLP-encode the header — panicking (`.error`) when the
encoding fails — and put the bytes under the key. -/
def blockDB.add (db : LevelDB) (key : Hash) (h : Header) :
    Except String LevelDB :=
  if db.has key then .ok db
  else
    match rlpEncodeToBytes h with
    | .error e => .error ("Failed encoding header: " ++ e)
    | .ok data => .ok (db.put key data)

/-- Embedding of `blockDB.get` (monitor.go:258-268): read the bytes under the key,
returning `none` on any read error; decode the bytes, panicking
(`.error`) when decoding fails. -/
def blockDB.get (db : LevelDB) (key : Hash) :
    Except String (Option Header) :=
  match db.rawGet key with
  | .error _ => .ok none
  | .ok data =>
    match rlpDecodeBytes data with
    | .error e => .error ("Failed decoding our own data: " ++ e)
    | .ok h => .ok (some h)

/-- The possible outcomes of the external goleveldb `OpenFile` /
`RecoverFile` calls, at their interface boundary: success, failure with
a corruption error (`*errors.ErrCorrupted`), or failure with another
error. -/
inductive OpenResult where
  | ok (db : LevelDB)
  | corrupted (msg : String)
  | failed (msg : String)

/-- Embedding of `NewBlockDB` (monitor.go:229-244), parametrized by the outcomes of
the external calls: open the database; if the open failed with a
corruption error, retry with `RecoverFile`; return the resulting error,
if any, otherwise the database. -/
def NewBlockDB (openFile recoverFile : OpenResult) : Except String LevelDB :=
  match openFile with
  | .ok db => .ok db
  | .corrupted _ =>
    match recoverFile with
    | .ok db => .ok db
    | .corrupted m => .error m
    | .failed m => .error m
  | .failed m => .error m

/-! ### Binary search (`findSplit`, claim C1) -/

/-- The search result `sortSearchAux f i j` stays within `[i, j]`. -/
theorem sortSearchAux_bounds (f : Nat → Bool) :
    ∀ n i j, j - i ≤ n → i ≤ j →
      i ≤ sortSearchAux f i j ∧ sortSearchAux f i j ≤ j := by
  intro n
  induction n with
  | zero =>
    intro i j hn hij
    rw [sortSearchAux, dif_neg (by omega : ¬ i < j)]
    omega
  | succ n ih =>
    intro i j hn hij
    rw [sortSearchAux]
    by_cases hlt : i < j
    · rw [dif_pos hlt]
      have h1 : i ≤ (i + j) / 2 := by omega
      have h2 : (i + j) / 2 < j := by omega
      by_cases hf : f ((i + j) / 2) = true
      · rw [if_pos hf]
        have := ih i ((i + j) / 2) (by omega) (by omega)
        omega
      · rw [if_neg hf]
        have := ih ((i + j) / 2 + 1) j (by omega) (by omega)
        omega
    · rw [dif_neg hlt]
      omega

/-- On a predicate that is false strictly below `k` and true on `[k, j)`,
the `sort.Search` loop over `[i, j]` with `i ≤ k ≤ j` returns exactly
`k`. -/
theorem sortSearchAux_spec (f : Nat → Bool) (k : Nat) :
    ∀ n i j, j - i ≤ n → i ≤ k → k ≤ j →
      (∀ m, m < k → f m = false) →
      (∀ m, k ≤ m → m < j → f m = true) →
      sortSearchAux f i j = k := by
  intro n
  induction n with
  | zero =>
    intro i j hn hik hkj _ _
    rw [sortSearchAux, dif_neg (by omega : ¬ i < j)]
    omega
  | succ n ih =>
    intro i j hn hik hkj hlo hhi
    rw [sortSearchAux]
    by_cases hlt : i < j
    · rw [dif_pos hlt]
      have h1 : i ≤ (i + j) / 2 := by omega
      have h2 : (i + j) / 2 < j := by omega
      by_cases hf : f ((i + j) / 2) = true
      · rw [if_pos hf]
        have hkm : k ≤ (i + j) / 2 := by
          by_contra hc
          rw [hlo ((i + j) / 2) (by omega)] at hf
          exact Bool.noConfusion hf
        exact ih i ((i + j) / 2) (by omega) hik hkm hlo
          (fun m hm1 hm2 => hhi m hm1 (by omega))
      · rw [if_neg hf]
        have hmk : (i + j) / 2 < k := by
          by_contra hc
          exact hf (hhi ((i + j) / 2) (by omega) h2)
        exact ih ((i + j) / 2 + 1) j (by omega) (by omega) hkj hlo hhi
    · rw [dif_neg hlt]
      omega

/-- C1: for every pair of nodes whose hash sequences over heights
`[0, N)` agree on `[0, k)` and disagree on `[k, N)`, `findSplit(N, a, b)`
returns exactly `k`, for every `k` with `0 ≤ k ≤ N` (including `k = 0`
and `k = N - 1`). -/
theorem findSplit_first_divergence (N k : Nat) (a b : Node)
    (hkN : k ≤ N)
    (hagree : ∀ i, i < k → a.hashAt i = b.hashAt i)
    (hdiff : ∀ i, i < N → k ≤ i → a.hashAt i ≠ b.hashAt i) :
    findSplit N a b = k := by
  unfold findSplit sortSearch
  apply sortSearchAux_spec _ k N 0 N (by omega) (by omega) hkN
  · intro m hm
    simp only [bne_eq_false_iff_eq]
    exact hagree m hm
  · intro m hkm hmN
    simp only [bne_iff_ne, ne_eq]
    exact hdiff m hmN hkm

/-- Hash sequence of the first witness node: agrees with `wHashB` below
height 2, differs from it at heights 2 and above. -/
def wHashA : Nat → Hash := fun i => if i < 2 then i else i + 100

/-- Hash sequence of the second witness node. -/
def wHashB : Nat → Hash := fun i => i

/-- A concrete node diverging from `nodeB` at height 2. -/
def nodeA : Node :=
  ⟨"a", .ok, false, 5, fun i => some (wHashA i), wHashA⟩

/-- A concrete node diverging from `nodeA` at height 2. -/
def nodeB : Node :=
  ⟨"b", .ok, false, 5, fun i => some (wHashB i), wHashB⟩

/-- Witness for C1 at `N = 5`, `k = 2` on concrete nodes. -/
theorem findSplit_first_divergence_witness :
    (2 ≤ 5 ∧ (∀ i, i < 2 → nodeA.hashAt i = nodeB.hashAt i) ∧
      (∀ i, i < 5 → 2 ≤ i → nodeA.hashAt i ≠ nodeB.hashAt i)) ∧
    findSplit 5 nodeA nodeB = 2 :=
  ⟨⟨by decide, by decide, by decide⟩,
    findSplit_first_divergence 5 2 nodeA nodeB (by decide) (by decide)
      (by decide)⟩

/-! ### Pairwise enumeration (`forPairs`, claim C2) -/

/-- Twice the number of pair calls, plus the list length, is the squared
length (division-free form of `n * (n-1) / 2`). -/
theorem pairCalls_length_aux {α : Type} :
    ∀ l : List α,
      2 * (pairCalls l).length + l.length = l.length * l.length := by
  intro l
  induction l with
  | nil => rfl
  | cons x xs ih =>
    simp only [pairCalls, List.length_append, List.length_map,
      List.length_cons]
    have hsq : (xs.length + 1) * (xs.length + 1)
        = xs.length * xs.length + 2 * xs.length + 1 := by ring
    rw [hsq, ← ih]
    omega

/-- The call list `pairCalls` commutes with `map`. -/
theorem pairCalls_map {α β : Type} (f : α → β) :
    ∀ l : List α,
      pairCalls (l.map f) = (pairCalls l).map (fun p => (f p.1, f p.2)) := by
  intro l
  induction l with
  | nil => rfl
  | cons x xs ih =>
    simp [pairCalls, ih, List.map_map, Function.comp_def]

/-- Both components of a pair call are elements of the list. -/
theorem pairCalls_mem_of_mem {α : Type} :
    ∀ (l : List α) (p : α × α), p ∈ pairCalls l → p.1 ∈ l ∧ p.2 ∈ l := by
  intro l
  induction l with
  | nil => intro p hp; simp [pairCalls] at hp
  | cons x xs ih =>
    intro p hp
    simp only [pairCalls, List.mem_append, List.mem_map] at hp
    rcases hp with ⟨y, hy, hyp⟩ | hp
    · subst hyp; simp [hy]
    · have := ih p hp
      simp [this.1, this.2]

/-- The pair-call sequence of a duplicate-free list is duplicate-free. -/
theorem pairCalls_nodup {α : Type} :
    ∀ l : List α, l.Nodup → (pairCalls l).Nodup := by
  intro l
  induction l with
  | nil => intro _; simp [pairCalls]
  | cons x xs ih =>
    intro hnd
    rw [List.nodup_cons] at hnd
    simp only [pairCalls]
    refine List.Nodup.append ?_ (ih hnd.2) ?_
    · exact hnd.2.map (fun a b hab => by simpa using hab)
    · intro p hp1 hp2
      obtain ⟨y, _, rfl⟩ := List.mem_map.1 hp1
      exact hnd.1 (pairCalls_mem_of_mem xs _ hp2).1

/-- Membership in the pair calls over `List.range n` is exactly
`i < j < n`. -/
theorem pairCalls_range_mem :
    ∀ n i j : Nat, (i, j) ∈ pairCalls (List.range n) ↔ i < j ∧ j < n := by
  intro n
  induction n with
  | zero => intro i j; simp [List.range_zero, pairCalls]
  | succ n ih =>
    intro i j
    rw [List.range_succ_eq_map]
    simp only [pairCalls, List.mem_append, List.mem_map, pairCalls_map,
      List.mem_range, Prod.mk.injEq]
    constructor
    · rintro (⟨y, ⟨m, hm, rfl⟩, h0, rfl⟩ | ⟨⟨q1, q2⟩, hq, h1, h2⟩)
      · omega
      · have := (ih q1 q2).1 hq
        omega
    · rintro ⟨hij, hjn⟩
      rcases Nat.eq_zero_or_pos i with hi | hi
      · subst hi
        exact Or.inl ⟨j, ⟨j - 1, by omega, by omega⟩, rfl, rfl⟩
      · refine Or.inr ⟨(i - 1, j - 1), (ih _ _).2 ⟨by omega, by omega⟩,
          by omega, by omega⟩

/-- A default node (for indexing into the node list). -/
def dummyNode : Node :=
  ⟨"", .ok, false, 0, fun _ => none, fun _ => 0⟩

/-- Every list equals the range of its length mapped through indexing. -/
theorem list_eq_range_map {α : Type} (d : α) :
    ∀ l : List α, l = (List.range l.length).map (fun i => l.getD i d) := by
  intro l
  induction l with
  | nil => rfl
  | cons x xs ih =>
    rw [List.length_cons, List.range_succ_eq_map, List.map_cons,
      List.map_map]
    refine congrArg (x :: ·) ?_
    refine ih.trans (List.map_congr_left ?_)
    intro i _
    rfl

/-- C2: `forPairs` invokes the comparison function exactly
`n * (n-1) / 2` times for a list of `n` nodes, once for each unordered
pair of distinct positions `i < j`, regardless of the order of the
list: the call sequence is `pairCalls`, its length is `n * (n-1) / 2`,
it is the image of the index pairs `(i, j)` with `i < j < n`, and each
such index pair occurs in it exactly once. -/
theorem forPairs_each_pair_once :
    (∀ elems : List Node,
        (pairCalls elems).length = elems.length * (elems.length - 1) / 2) ∧
    (∀ elems : List Node,
        pairCalls elems =
          (pairCalls (List.range elems.length)).map
            (fun p => (elems.getD p.1 dummyNode, elems.getD p.2 dummyNode))) ∧
    (∀ n i j : Nat, (i, j) ∈ pairCalls (List.range n) ↔ i < j ∧ j < n) ∧
    (∀ n : Nat, (pairCalls (List.range n)).Nodup) := by
  refine ⟨?_, ?_, pairCalls_range_mem, ?_⟩
  · intro elems
    have h1 := pairCalls_length_aux elems
    have h2 : elems.length * (elems.length - 1) + elems.length
        = elems.length * elems.length := by
      rcases Nat.eq_zero_or_pos elems.length with h | h
      · simp [h]
      · have : elems.length - 1 + 1 = elems.length := by omega
        calc elems.length * (elems.length - 1) + elems.length
            = elems.length * (elems.length - 1 + 1) := by ring
          _ = elems.length * elems.length := by rw [this]
    omega
  · intro elems
    conv_lhs => rw [list_eq_range_map dummyNode elems, pairCalls_map]
  · intro n
    exact pairCalls_nodup _ (List.nodup_range n)

/-- Witness for C2 at `n = 3`, pair `(0, 2)`. -/
theorem forPairs_each_pair_once_witness :
    (0 < 2 ∧ 2 < 3) ∧ (0, 2) ∈ pairCalls (List.range 3) :=
  ⟨⟨by decide, by decide⟩,
    (forPairs_each_pair_once.2.2.1 3 0 2).2 ⟨by decide, by decide⟩⟩

/-! ### Polling (claim C6) -/

/-- Characterization of the three results of the polling loop. -/
theorem pollPhase_parts (nodes : List Node) :
    (pollPhase nodes).1
      = nodes.map (fun n =>
          n.setStatus (if n.updateErr then .unreachable else .ok)) ∧
    (pollPhase nodes).2.1
      = (nodes.filter (fun n => !n.updateErr)).map (·.setStatus .ok) ∧
    (pollPhase nodes).2.2
      = ((nodes.filter (fun n => !n.updateErr)).map (·.headNum)).toFinset := by
  induction nodes with
  | nil => exact ⟨rfl, rfl, rfl⟩
  | cons x xs ih =>
    simp only [pollPhase]
    by_cases hx : x.updateErr
    · simp [hx, List.filter_cons, ih.1, ih.2.1, ih.2.2]
    · simp [hx, List.filter_cons, ih.1, ih.2.1, ih.2.2]

/-- C6: the poll outcome determines status and active-set membership
deterministically and independently of prior status: after the polling
loop, every node's status is Unreachable exactly when its `UpdateLatest`
failed and OK otherwise; the active set is exactly the nodes whose
`UpdateLatest` succeeded (in input order, marked OK), so a failed node
joins no pairwise comparison; and the recorded head set is exactly the
head heights of the successfully polled nodes. -/
theorem pollPhase_poll_outcome (nodes : List Node) :
    (pollPhase nodes).1
      = nodes.map (fun n =>
          n.setStatus (if n.updateErr then .unreachable else .ok)) ∧
    (pollPhase nodes).2.1
      = (nodes.filter (fun n => !n.updateErr)).map (·.setStatus .ok) ∧
    (pollPhase nodes).2.2
      = ((nodes.filter (fun n => !n.updateErr)).map (·.headNum)).toFinset :=
  pollPhase_parts nodes

/-! ### Pairwise phase state lemmas (claims C3, C4, C7) -/

/-- A pair step never removes heights from the `heads` set. -/
theorem pairStep_heads_mono (st : Int × Finset Nat) (a b : Node) :
    st.2 ⊆ (pairStep st a b).2 := by
  unfold pairStep
  cases hA : a.blockAt (commonHorizon a b) with
  | none => simp only [hA]; exact fun x hx => hx
  | some ha =>
    cases hB : b.blockAt (commonHorizon a b) with
    | none => simp only [hA, hB]; exact fun x hx => hx
    | some hb =>
      simp only [hA, hB]
      by_cases hcmp : ha = hb
      · simp only [hcmp]
        simp
      · rw [if_neg (by simpa using hcmp)]
        by_cases hs : 0 < findSplit (commonHorizon a b) a b
        · rw [if_pos hs]
          intro x hx
          exact Finset.mem_insert_of_mem (Finset.mem_insert_of_mem hx)
        · rw [if_neg hs]
          intro x hx
          exact Finset.mem_insert_of_mem hx

/-- A diverging pair's step records its split height, and the height
below it when the split height is positive. -/
theorem pairStep_divergent_insert (st : Int × Finset Nat) (a b : Node)
    (h : diverges a b = true) :
    splitHeight a b ∈ (pairStep st a b).2 ∧
      (0 < splitHeight a b → splitHeight a b - 1 ∈ (pairStep st a b).2) := by
  unfold diverges at h
  unfold pairStep
  cases hA : a.blockAt (commonHorizon a b) with
  | none => rw [hA] at h; simp at h
  | some ha =>
    rw [hA] at h
    cases hB : b.blockAt (commonHorizon a b) with
    | none => rw [hB] at h; simp at h
    | some hb =>
      rw [hB] at h
      simp only at h
      have hne : ¬ ha = hb := by
        intro hcmp
        rw [hcmp] at h
        simp at h
      simp only [hA, hB]
      rw [if_neg (by simpa using hne)]
      unfold splitHeight
      by_cases hs : 0 < findSplit (commonHorizon a b) a b
      · rw [if_pos hs]
        simp [Finset.mem_insert, hs]
      · rw [if_neg hs]
        simp [Finset.mem_insert, hs]

/-- Assigning the larger of two values through a guarded overwrite
computes their maximum. -/
theorem ite_lt_max (a b : Int) : (if a < b then b else a) = max a b := by
  rcases le_or_lt b a with h | h
  · rw [if_neg (not_lt.2 h), max_eq_left h]
  · rw [if_pos h, max_eq_right h.le]

/-- The pair step updates the split-size accumulator to the maximum with
the pair's split length when the pair diverges, and leaves it unchanged
otherwise. -/
theorem pairStep_splitSize (st : Int × Finset Nat) (a b : Node) :
    (pairStep st a b).1
      = if diverges a b then max st.1 (splitLength a b) else st.1 := by
  unfold pairStep diverges
  cases hA : a.blockAt (commonHorizon a b) with
  | none => simp [hA]
  | some ha =>
    cases hB : b.blockAt (commonHorizon a b) with
    | none => simp [hA, hB]
    | some hb =>
      simp only [hA, hB]
      by_cases hcmp : ha = hb
      · simp [hcmp]
      · rw [if_neg (by simpa using hcmp)]
        have hbne : (ha != hb) = true := by simpa using hcmp
        rw [if_pos hbne]
        show (if st.1 < _ then _ else st.1) = _
        rw [ite_lt_max]
        rfl

/-- The result of `findSplit` never exceeds the searched bound. -/
theorem findSplit_le (num : Nat) (a b : Node) :
    findSplit num a b ≤ num :=
  (sortSearchAux_bounds _ num 0 num (by omega) (by omega)).2

/-- Split lengths are non-negative. -/
theorem splitLength_nonneg (a b : Node) : 0 ≤ splitLength a b := by
  unfold splitLength splitHeight
  have := findSplit_le (commonHorizon a b) a b
  omega

/-- Heads only grow along the pairwise fold. -/
theorem foldl_pairStep_heads_mono :
    ∀ (l : List (Node × Node)) (st : Int × Finset Nat),
      st.2 ⊆ (l.foldl (fun st q => pairStep st q.1 q.2) st).2 := by
  intro l
  induction l with
  | nil => intro st; exact fun x hx => hx
  | cons q l ih =>
    intro st
    simp only [List.foldl_cons]
    exact fun x hx => ih (pairStep st q.1 q.2) (pairStep_heads_mono st q.1 q.2 hx)

/-- Any diverging pair in the fold's pair list leaves its split height
(and, when positive, its predecessor) in the final heads set. -/
theorem foldl_pairStep_divergent_mem :
    ∀ (l : List (Node × Node)) (st : Int × Finset Nat) (p : Node × Node),
      p ∈ l → diverges p.1 p.2 = true →
      splitHeight p.1 p.2 ∈ (l.foldl (fun st q => pairStep st q.1 q.2) st).2 ∧
        (0 < splitHeight p.1 p.2 →
          splitHeight p.1 p.2 - 1
            ∈ (l.foldl (fun st q => pairStep st q.1 q.2) st).2) := by
  intro l
  induction l with
  | nil => intro st p hp; simp at hp
  | cons q l ih =>
    intro st p hp hd
    simp only [List.foldl_cons]
    rcases List.mem_cons.1 hp with rfl | hp'
    · have h1 := pairStep_divergent_insert st p.1 p.2 hd
      exact ⟨foldl_pairStep_heads_mono l _ h1.1,
        fun h0 => foldl_pairStep_heads_mono l _ (h1.2 h0)⟩
    · exact ih _ p hp' hd

/-- The split-size accumulator after the fold is the running maximum of
the diverging pairs' split lengths. -/
theorem foldl_pairStep_splitSize :
    ∀ (l : List (Node × Node)) (st : Int × Finset Nat),
      (l.foldl (fun st q => pairStep st q.1 q.2) st).1
        = ((l.filter (fun q => diverges q.1 q.2)).map
            (fun q => splitLength q.1 q.2)).foldl max st.1 := by
  intro l
  induction l with
  | nil => intro st; rfl
  | cons q l ih =>
    intro st
    rw [List.foldl_cons, ih, List.filter_cons]
    by_cases hd : diverges q.1 q.2 = true
    · rw [if_pos (by simpa using hd), List.map_cons, List.foldl_cons]
      congr 1
      rw [pairStep_splitSize, if_pos hd]
    · rw [if_neg (by simpa using hd)]
      congr 1
      rw [pairStep_splitSize, if_neg hd]

/-- A left fold of `max` dominates its inputs and is either the seed or
one of the inputs. -/
theorem foldl_max_spec :
    ∀ (L : List Int) (s : Int),
      s ≤ L.foldl max s ∧ (∀ x ∈ L, x ≤ L.foldl max s) ∧
        (L.foldl max s = s ∨ L.foldl max s ∈ L) := by
  intro L
  induction L with
  | nil => intro s; exact ⟨le_refl s, by simp, Or.inl rfl⟩
  | cons a L ih =>
    intro s
    simp only [List.foldl_cons]
    have h := ih (max s a)
    refine ⟨le_trans (le_max_left s a) h.1, ?_, ?_⟩
    · intro x hx
      rcases List.mem_cons.1 hx with rfl | hx'
      · exact le_trans (le_max_right s x) h.1
      · exact h.2.1 x hx'
    · rcases h.2.2 with heq | hmem
      · rw [heq]
        rcases le_total a s with hle | hle
        · exact Or.inl (max_eq_left hle)
        · rw [max_eq_right hle]
          exact Or.inr (List.mem_cons_self a L)
      · exact Or.inr (List.mem_cons_of_mem a hmem)

/-- The split lengths of the diverging pairs among this cycle's active
nodes, in the order the pairs are evaluated. -/
def divergingLengths (active : List Node) : List Int :=
  ((pairCalls active).filter (fun p => diverges p.1 p.2)).map
    (fun p => splitLength p.1 p.2)

/-- Every diverging split length is non-negative. -/
theorem divergingLengths_nonneg (active : List Node) :
    ∀ x ∈ divergingLengths active, 0 ≤ x := by
  intro x hx
  obtain ⟨p, _, rfl⟩ := List.mem_map.1 hx
  exact splitLength_nonneg p.1 p.2

/-- The gauge value of a cycle is the fold of `max` over the diverging
split lengths, seeded with 0. -/
theorem doChecks_splitSize_eq_foldl (nodes : List Node) :
    (doChecks nodes).splitSize
      = (divergingLengths (doChecks nodes).activeNodes).foldl max 0 := by
  show (pairPhase (pollPhase nodes).2.1 (pollPhase nodes).2.2).1 = _
  unfold pairPhase forPairs divergingLengths
  exact foldl_pairStep_splitSize _ _

/-- C3: after a cycle's pairwise phase, the heads-of-interest set
contains the current head height of every active (successfully polled)
node, and, for every pair found diverging, the split height and
additionally the split height minus one whenever the split height is
positive. -/
theorem doChecks_heads_of_interest (nodes : List Node) :
    (∀ node ∈ (doChecks nodes).activeNodes,
        node.headNum ∈ (doChecks nodes).heads) ∧
    (∀ p ∈ pairCalls (doChecks nodes).activeNodes,
        diverges p.1 p.2 = true →
          splitHeight p.1 p.2 ∈ (doChecks nodes).heads ∧
            (0 < splitHeight p.1 p.2 →
              splitHeight p.1 p.2 - 1 ∈ (doChecks nodes).heads)) := by
  have hpoll := pollPhase_parts nodes
  have hheads : (doChecks nodes).heads
      = ((pairCalls (pollPhase nodes).2.1).foldl
          (fun st q => pairStep st q.1 q.2)
          ((0 : Int), (pollPhase nodes).2.2)).2 := rfl
  have hact : (doChecks nodes).activeNodes = (pollPhase nodes).2.1 := rfl
  constructor
  · intro node hnode
    rw [hact, hpoll.2.1] at hnode
    obtain ⟨m, hm, rfl⟩ := List.mem_map.1 hnode
    have hmem0 : (m.setStatus .ok).headNum ∈ (pollPhase nodes).2.2 := by
      rw [hpoll.2.2]
      exact List.mem_toFinset.2 (List.mem_map.2 ⟨m, hm, rfl⟩)
    rw [hheads]
    exact foldl_pairStep_heads_mono _ ((0 : Int), (pollPhase nodes).2.2) hmem0
  · intro p hp hd
    rw [hact] at hp
    rw [hheads]
    exact foldl_pairStep_divergent_mem _ ((0 : Int), (pollPhase nodes).2.2)
      p hp hd

/-- Witness for C3: two concrete nodes diverging at height 2; both the
split height 2 and its predecessor 1 end up in the heads set. -/
theorem doChecks_heads_of_interest_witness :
    ((nodeA.setStatus .ok, nodeB.setStatus .ok)
        ∈ pairCalls (doChecks [nodeA, nodeB]).activeNodes ∧
      diverges (nodeA.setStatus .ok) (nodeB.setStatus .ok) = true) ∧
    splitHeight (nodeA.setStatus .ok) (nodeB.setStatus .ok)
      ∈ (doChecks [nodeA, nodeB]).heads :=
  ⟨⟨List.Mem.head _, by decide⟩,
    ((doChecks_heads_of_interest [nodeA, nodeB]).2
      (nodeA.setStatus .ok, nodeB.setStatus .ok)
      (List.Mem.head _) (by decide)).1⟩

/-- C4: for every pair, the split length equals the common horizon minus
the split height; the cycle's split-size gauge equals the maximum split
length over the diverging pairs of the cycle, or 0 when no pair
diverges. -/
theorem doChecks_splitSize_gauge (nodes : List Node) :
    (∀ a b : Node,
        splitLength a b
          = (commonHorizon a b : Int) - (splitHeight a b : Int)) ∧
    (divergingLengths (doChecks nodes).activeNodes = [] →
        (doChecks nodes).splitSize = 0) ∧
    (divergingLengths (doChecks nodes).activeNodes ≠ [] →
        (doChecks nodes).splitSize
            ∈ divergingLengths (doChecks nodes).activeNodes ∧
          ∀ x ∈ divergingLengths (doChecks nodes).activeNodes,
            x ≤ (doChecks nodes).splitSize) := by
  have hfold := doChecks_splitSize_eq_foldl nodes
  refine ⟨fun a b => rfl, ?_, ?_⟩
  · intro hnil
    rw [hfold, hnil]
    rfl
  · intro hne
    have hspec := foldl_max_spec
      (divergingLengths (doChecks nodes).activeNodes) 0
    refine ⟨?_, fun x hx => by rw [hfold]; exact hspec.2.1 x hx⟩
    rw [hfold]
    rcases hspec.2.2 with heq | hmem
    · rw [heq]
      obtain ⟨y, L, hyL⟩ := List.exists_cons_of_ne_nil hne
      have hy0 : y = 0 := by
        have h1 : 0 ≤ y := divergingLengths_nonneg _ y (by rw [hyL]; exact List.Mem.head _)
        have h2 : y ≤ _ := hspec.2.1 y (by rw [hyL]; exact List.Mem.head _)
        rw [heq] at h2
        omega
      rw [hyL, ← hy0]
      exact List.Mem.head _
    · exact hmem

/-- Witness for C4: the concrete pair `nodeA`/`nodeB` diverges with
split length 3, which is the gauge value. -/
theorem doChecks_splitSize_gauge_witness :
    divergingLengths (doChecks [nodeA, nodeB]).activeNodes ≠ [] ∧
      (doChecks [nodeA, nodeB]).splitSize
          ∈ divergingLengths (doChecks [nodeA, nodeB]).activeNodes ∧
        ∀ x ∈ divergingLengths (doChecks [nodeA, nodeB]).activeNodes,
          x ≤ (doChecks [nodeA, nodeB]).splitSize :=
  ⟨fun h => List.cons_ne_nil _ _ h,
    (doChecks_splitSize_gauge [nodeA, nodeB]).2.2
      (fun h => List.cons_ne_nil _ _ h)⟩

/-- C7: a pair for which `BlockAt` at the common horizon is absent on
either side is abandoned without contributing anything: it is not
diverging, its step leaves the split-size accumulator and the heads set
unchanged, and the fold over any cycle's pair list behaves as if the
pair were not there, leaving all other pairs unaffected. -/
theorem pairStep_missing_block (a b : Node)
    (h : a.blockAt (commonHorizon a b) = none
      ∨ b.blockAt (commonHorizon a b) = none) :
    diverges a b = false ∧
    (∀ st : Int × Finset Nat, pairStep st a b = st) ∧
    ∀ (l₁ l₂ : List (Node × Node)) (st : Int × Finset Nat),
      (l₁ ++ (a, b) :: l₂).foldl (fun st q => pairStep st q.1 q.2) st
        = (l₁ ++ l₂).foldl (fun st q => pairStep st q.1 q.2) st := by
  have hstep : ∀ st : Int × Finset Nat, pairStep st a b = st := by
    intro st
    unfold pairStep
    rcases h with h | h
    · simp [h]
    · cases hA : a.blockAt (commonHorizon a b) with
      | none => simp [hA]
      | some ha => simp [hA, h]
  refine ⟨?_, hstep, ?_⟩
  · unfold diverges
    rcases h with h | h
    · simp [h]
    · cases hA : a.blockAt (commonHorizon a b) with
      | none => simp [hA]
      | some ha => simp [hA, h]
  · intro l₁ l₂ st
    rw [List.foldl_append, List.foldl_append, List.foldl_cons, hstep]

/-- A concrete node that is missing every block. -/
def nodeC : Node :=
  ⟨"c", .ok, false, 5, fun _ => none, wHashB⟩

/-- Witness for C7: pairing `nodeA` with the block-less `nodeC` leaves
the state `(0, ∅)` unchanged. -/
theorem pairStep_missing_block_witness :
    (nodeA.blockAt (commonHorizon nodeA nodeC) = none
        ∨ nodeC.blockAt (commonHorizon nodeA nodeC) = none) ∧
      pairStep ((0 : Int), (∅ : Finset Nat)) nodeA nodeC
        = ((0 : Int), (∅ : Finset Nat)) :=
  ⟨Or.inr rfl,
    (pairStep_missing_block nodeA nodeC (Or.inr rfl)).2.1
      ((0 : Int), (∅ : Finset Nat))⟩

/-- C8: the reported height list of a cycle is the deduplicated
heads-of-interest set sorted in strictly descending order. -/
theorem doChecks_headList_descending (nodes : List Node) :
    (doChecks nodes).headList.Pairwise (· > ·) ∧
    (doChecks nodes).headList.Nodup ∧
    (doChecks nodes).headList.toFinset = (doChecks nodes).heads := by
  have h1 : (doChecks nodes).headList
      = ((doChecks nodes).heads.sort (· ≤ ·)).reverse := rfl
  refine ⟨?_, ?_, ?_⟩
  · rw [h1, List.pairwise_reverse]
    exact Finset.sort_sorted_lt _
  · rw [h1, List.nodup_reverse]
    exact Finset.sort_nodup _ _
  · rw [h1, List.toFinset_reverse]
    exact Finset.sort_toFinset _ _

/-! ### Header store (claims C5, C9, C10) -/

/-- C5: `blockDB.add` is idempotent.  Adding under a key that already
exists is a no-op, so the stored value stays equal to the first write;
and for a fresh, readable key, `get` after `add` returns exactly the
header that was first stored. -/
theorem blockDB_add_idempotent :
    (∀ (db : LevelDB) (k : Hash) (h' : Header),
        db.has k = true → blockDB.add db k h' = .ok db) ∧
    (∀ (db : LevelDB) (k : Hash) (h h' : Header),
        db.has k = false → db.readFail k = false →
        ∃ db₁, blockDB.add db k h = .ok db₁ ∧
          blockDB.add db₁ k h' = .ok db₁ ∧
          blockDB.get db₁ k = .ok (some h)) := by
  constructor
  · intro db k h' hk
    unfold blockDB.add
    rw [if_pos hk]
  · intro db k h h' hk hr
    refine ⟨db.put k [h], ?_, ?_, ?_⟩
    · unfold blockDB.add
      rw [if_neg (by simp [hk])]
      rfl
    · unfold blockDB.add
      have hhas : (db.put k [h]).has k = true := by
        unfold LevelDB.has LevelDB.put
        simp [List.lookup]
      rw [if_pos hhas]
    · unfold blockDB.get LevelDB.rawGet LevelDB.put
      simp [hr, List.lookup, rlpDecodeBytes]

/-- An empty, error-free database handle. -/
def emptyDB : LevelDB := ⟨[], fun _ => false⟩

/-- Witness for C5: storing header 42 under key 7 in the empty store,
then re-adding 99 under the same key, leaves the first write in place. -/
theorem blockDB_add_idempotent_witness :
    (emptyDB.has 7 = false ∧ emptyDB.readFail 7 = false) ∧
    ∃ db₁, blockDB.add emptyDB 7 42 = .ok db₁ ∧
      blockDB.add db₁ 7 99 = .ok db₁ ∧
      blockDB.get db₁ 7 = .ok (some 42) :=
  ⟨⟨rfl, rfl⟩, blockDB_add_idempotent.2 emptyDB 7 42 99 rfl rfl⟩

/-- C9: when the initial open fails with a corruption error, a recovery
open is attempted; its successful result is returned, and an error is
surfaced to the caller exactly when the recovery also fails. -/
theorem newBlockDB_recovery (m : String) (r : OpenResult) :
    (∀ db, r = .ok db → NewBlockDB (.corrupted m) r = .ok db) ∧
    ((∃ e, NewBlockDB (.corrupted m) r = .error e) ↔ ∀ db, r ≠ .ok db) := by
  cases r with
  | ok db =>
    constructor
    · intro db' hdb'
      cases hdb'
      rfl
    · constructor
      · rintro ⟨e, he⟩
        exact absurd he (by simp [NewBlockDB])
      · intro hall
        exact absurd rfl (hall db)
  | corrupted m2 =>
    constructor
    · intro db' hdb'
      cases hdb'
    · constructor
      · intro _ db hdb
        cases hdb
      · intro _
        exact ⟨m2, rfl⟩
  | failed m2 =>
    constructor
    · intro db' hdb'
      cases hdb'
    · constructor
      · intro _ db hdb
        cases hdb
      · intro _
        exact ⟨m2, rfl⟩

/-- Witness for C9: a corrupted open followed by a failed recovery
surfaces an error. -/
theorem newBlockDB_recovery_witness :
    (∀ db, OpenResult.failed "boom" ≠ OpenResult.ok db) ∧
    ∃ e, NewBlockDB (.corrupted "bad manifest") (.failed "boom")
      = .error e := by
  constructor
  · intro db hdb
    cases hdb
  · exact (newBlockDB_recovery "bad manifest" (.failed "boom")).2.2
      (fun db hdb => OpenResult.noConfusion hdb)

/-- C10: `blockDB.get` collapses every underlying read failure,
including a never-added key, into the not-found result `none` without
panicking; a panic (`Except.error`) happens only when stored bytes are
present but fail to decode. -/
theorem blockDB_get_read_failures (db : LevelDB) (k : Hash) :
    ((∃ e, db.rawGet k = .error e) → blockDB.get db k = .ok none) ∧
    (db.entries.lookup k = none → blockDB.get db k = .ok none) ∧
    (∀ e, blockDB.get db k = .error e →
        ∃ data, db.rawGet k = .ok data ∧
          ∃ e2, rlpDecodeBytes data = .error e2) := by
  refine ⟨?_, ?_, ?_⟩
  · rintro ⟨e, he⟩
    unfold blockDB.get
    rw [he]
  · intro hnone
    unfold blockDB.get LevelDB.rawGet
    by_cases hrf : db.readFail k
    · simp [hrf]
    · simp [hrf, hnone]
  · intro e he
    unfold blockDB.get at he
    cases hraw : db.rawGet k with
    | error e1 => rw [hraw] at he; cases he
    | ok data =>
      rw [hraw] at he
      cases hdec : rlpDecodeBytes data with
      | error e2 => exact ⟨data, rfl, e2, hdec⟩
      | ok hd => simp [hdec] at he

/-- Witness for C10: reading a never-added key from the empty store
yields `none` rather than a panic. -/
theorem blockDB_get_read_failures_witness :
    (∃ e, emptyDB.rawGet 5 = .error e) ∧
      blockDB.get emptyDB 5 = .ok none :=
  ⟨⟨"leveldb: not found", rfl⟩,
    (blockDB_get_read_failures emptyDB 5).1 ⟨"leveldb: not found", rfl⟩⟩

end EthMon
